import Mathlib

/-!
Verification of the PPO pendulum training program: a shallow embedding of
the rollout buffer with generalized advantage estimation (GAE), the
training-loop orchestration in pendulum_train.py, the actor network
forward pass, the advantage normalization, and the clipped surrogate
loss, together with theorems settling the specified properties.

Real-number data (rewards, values, advantages) is modelled over the exact
rationals, except for the actor network and the advantage normalization,
which involve tanh and sqrt and are modelled over the reals.
-/

namespace PPO

/-- One recorded environment step, as stored by the rollout buffer. -/
structure Transition where
  obs : List ℚ
  action : List ℚ
  reward : ℚ
  value : ℚ
  log_prob : ℚ
deriving DecidableEq, Repr, Inhabited

/-- Error kinds of the rollout buffer, from the error handling design. -/
inductive BufError where
  | BufferOverflow
  | InvalidState
  | NotReady
deriving DecidableEq, Repr

/-- Modelled from the spec: the Rollout Buffer of ppobuffer.py (the file is
absent from the sources; only its callers are present). A fixed-capacity
ordered sequence of transitions plus the two derived parallel arrays
`advantage` and `return`, populated only for the processed prefix. The
processed boundary is the length of `adv`. -/
structure PPOBuffer where
  capacity : ℕ
  data : List Transition
  adv : List ℚ
  ret : List ℚ
deriving DecidableEq, Repr

/-- Modelled from the spec: `record` appends a transition at the write
cursor and fails with `BufferOverflow` once called more than `capacity`
times since the last clear. -/
def record (buf : PPOBuffer) (tr : Transition) : Except BufError PPOBuffer :=
  if buf.data.length < buf.capacity then
    Except.ok { buf with data := buf.data ++ [tr] }
  else
    Except.error BufError.BufferOverflow

/-- Modelled from the spec: `clear` resets the write cursor and the
processed boundary to empty. -/
def clear (buf : PPOBuffer) : PPOBuffer :=
  { buf with data := [], adv := [], ret := [] }

/-- Record a list of transitions in order, stopping at the first error. -/
def recordMany (buf : PPOBuffer) : List Transition → Except BufError PPOBuffer
  | [] => Except.ok buf
  | tr :: rest =>
    match record buf tr with
    | Except.ok b1 => recordMany b1 rest
    | Except.error e => Except.error e

/-- The currently unprocessed suffix of the buffer, as (reward, value)
pairs: from the processed boundary up to the write cursor. -/
def segment (buf : PPOBuffer) : List (ℚ × ℚ) :=
  (buf.data.drop buf.adv.length).map (fun tr => (tr.reward, tr.value))

/-- One step of the backward GAE recursion: given the (reward, value) pair
at index t and the accumulator (advantages of indices above t, next_value,
next_advantage), produce the accumulator for index t - 1. -/
def gaeStep (gamma gae_lam : ℚ) (rv : ℚ × ℚ) (acc : List ℚ × ℚ × ℚ) :
    List ℚ × ℚ × ℚ :=
  let delta := rv.1 + gamma * acc.2.1 - rv.2
  let a := delta + gamma * gae_lam * acc.2.2
  (a :: acc.1, rv.2, a)

/-- The backward recursion over a whole segment, from the last index down,
starting from the given next_value and next_advantage. -/
def gaeFold (gamma gae_lam next_value next_advantage : ℚ)
    (seg : List (ℚ × ℚ)) : List ℚ × ℚ × ℚ :=
  seg.foldr (gaeStep gamma gae_lam) ([], next_value, next_advantage)

/-- The advantages of a segment: the backward recursion with
next_advantage initialized to 0. -/
def gaeAdvantages (gamma gae_lam next_value : ℚ) (seg : List (ℚ × ℚ)) :
    List ℚ :=
  (gaeFold gamma gae_lam next_value 0 seg).1

/-- Modelled from the spec: `process_trajectory` computes advantages and
returns for the currently unprocessed suffix by the backward recursion,
with next_value initialized to 0 if is_last_terminal else last_v and
next_advantage initialized to 0, and return[t] = advantage[t] + value[t]. -/
def process_trajectory (buf : PPOBuffer) (gamma gae_lam : ℚ)
    (is_last_terminal : Bool) (last_v : ℚ) : PPOBuffer :=
  let next_value : ℚ := if is_last_terminal then 0 else last_v
  let seg := segment buf
  let advs := gaeAdvantages gamma gae_lam next_value seg
  let rets := List.zipWith (· + ·) advs (seg.map Prod.snd)
  { buf with adv := buf.adv ++ advs, ret := buf.ret ++ rets }

lemma gaeFold_nil (gamma gae_lam nv na : ℚ) :
    gaeFold gamma gae_lam nv na [] = ([], nv, na) := rfl

lemma gaeFold_cons (gamma gae_lam nv na : ℚ) (p : ℚ × ℚ)
    (rest : List (ℚ × ℚ)) :
    gaeFold gamma gae_lam nv na (p :: rest) =
      gaeStep gamma gae_lam p (gaeFold gamma gae_lam nv na rest) := rfl

lemma gaeFold_fst_length (gamma gae_lam nv na : ℚ) (seg : List (ℚ × ℚ)) :
    (gaeFold gamma gae_lam nv na seg).1.length = seg.length := by
  induction seg with
  | nil => rfl
  | cons p rest ih =>
    simp only [gaeFold_cons, gaeStep, List.length_cons] at *
    omega

/-- The second component of the fold is the value at the head of the
segment (the next_value seen by the element just before the segment), or
the initial next_value if the segment is empty. -/
lemma gaeFold_nv (gamma gae_lam nv na : ℚ) (seg : List (ℚ × ℚ)) :
    (gaeFold gamma gae_lam nv na seg).2.1 =
      if seg.length = 0 then nv else (seg.getD 0 (0, 0)).2 := by
  cases seg with
  | nil => rfl
  | cons p rest => simp [gaeFold_cons, gaeStep]

/-- The third component of the fold is the advantage at the head of the
segment, or the initial next_advantage if the segment is empty. -/
lemma gaeFold_na (gamma gae_lam nv na : ℚ) (seg : List (ℚ × ℚ)) :
    (gaeFold gamma gae_lam nv na seg).2.2 =
      if seg.length = 0 then na
      else (gaeFold gamma gae_lam nv na seg).1.getD 0 0 := by
  cases seg with
  | nil => rfl
  | cons p rest => simp [gaeFold_cons, gaeStep]

/-- Index-wise characterization of the backward recursion: each computed
advantage equals delta plus the discounted next advantage, where the next
value and next advantage come from index i + 1, or from the initial
next_value and next_advantage at the last index. -/
lemma gaeFold_recursion (gamma gae_lam nv na : ℚ) (seg : List (ℚ × ℚ)) :
    ∀ i, i < seg.length →
      (gaeFold gamma gae_lam nv na seg).1.getD i 0 =
        ((seg.getD i (0, 0)).1 +
          gamma * (if i + 1 < seg.length then (seg.getD (i + 1) (0, 0)).2
                   else nv) -
          (seg.getD i (0, 0)).2) +
        gamma * gae_lam *
          (if i + 1 < seg.length then
            (gaeFold gamma gae_lam nv na seg).1.getD (i + 1) 0
           else na) := by
  induction seg with
  | nil => intro i h; simp at h
  | cons p rest ih =>
    intro i h
    cases i with
    | zero =>
      cases rest with
      | nil =>
        simp [gaeFold_cons, gaeFold_nil, gaeStep]
      | cons q rest2 =>
        simp only [gaeFold_cons, gaeStep, List.getD_cons_zero,
          List.getD_cons_succ, List.length_cons]
        rw [gaeFold_nv, gaeFold_na]
        simp [gaeFold_cons, gaeStep]
    | succ j =>
      simp only [List.length_cons, Nat.succ_lt_succ_iff] at h
      have hj := ih j h
      simp only [gaeFold_cons, gaeStep, List.getD_cons_succ,
        List.length_cons, Nat.add_lt_add_iff_right]
      exact hj

/-- Claim C1: process_trajectory computes the advantages of the currently
unprocessed suffix by the backward GAE recursion, with next_value
initialized to 0 if is_last_terminal else last_v and next_advantage
initialized to 0; each advantage equals delta plus gamma * gae_lam times
the next advantage, and on the 3-step trajectory with rewards [1, 1, 1],
values [1/2, 1/2, 1/2], gamma = 99/100, gae_lam = 19/20, last_v = 0,
terminal = true, the advantages are exactly those of the recursion:
[18984541/8000000, 5861/4000, 1/2]. -/
theorem process_trajectory_gae_recursion :
    (∀ (buf : PPOBuffer) (gamma gae_lam last_v : ℚ) (term : Bool),
      (process_trajectory buf gamma gae_lam term last_v).adv =
        buf.adv ++
          gaeAdvantages gamma gae_lam (if term then 0 else last_v)
            (segment buf)) ∧
    (∀ (gamma gae_lam nv : ℚ) (seg : List (ℚ × ℚ)) (i : ℕ),
      i < seg.length →
      (gaeAdvantages gamma gae_lam nv seg).getD i 0 =
        ((seg.getD i (0, 0)).1 +
          gamma * (if i + 1 < seg.length then (seg.getD (i + 1) (0, 0)).2
                   else nv) -
          (seg.getD i (0, 0)).2) +
        gamma * gae_lam *
          (if i + 1 < seg.length then
            (gaeAdvantages gamma gae_lam nv seg).getD (i + 1) 0
           else 0)) ∧
    (process_trajectory
        { capacity := 3,
          data :=
            [{ obs := [], action := [], reward := 1, value := 1/2,
               log_prob := 0 },
             { obs := [], action := [], reward := 1, value := 1/2,
               log_prob := 0 },
             { obs := [], action := [], reward := 1, value := 1/2,
               log_prob := 0 }],
          adv := [], ret := [] }
        (99/100) (19/20) true 0).adv =
      [18984541/8000000, 5861/4000, 1/2] := by
  refine ⟨fun buf gamma gae_lam last_v term => rfl, ?_, ?_⟩
  · intro gamma gae_lam nv seg i h
    exact gaeFold_recursion gamma gae_lam nv 0 seg i h
  · simp only [process_trajectory, gaeAdvantages, gaeFold, gaeStep, segment,
      List.drop, List.map, List.foldr, List.nil_append]
    norm_num

/-- Witness for C1: the recursion characterization applied at index 0 of
the concrete 3-step example segment. -/
theorem process_trajectory_gae_recursion_witness :
    (0 : ℕ) < 3 ∧
    (gaeAdvantages (99/100) (19/20) 0
        [(1, 1/2), (1, 1/2), (1, 1/2)]).getD 0 0 =
      ((1 : ℚ) + (99/100) * (1/2) - 1/2) +
        (99/100) * (19/20) *
          (gaeAdvantages (99/100) (19/20) 0
            [(1, 1/2), (1, 1/2), (1, 1/2)]).getD 1 0 := by
  refine ⟨by decide, ?_⟩
  have h := process_trajectory_gae_recursion.2.1 (99/100) (19/20) 0
    [(1, 1/2), (1, 1/2), (1, 1/2)] 0 (by decide)
  simpa using h

/-- The training loop combines the two episode-end flags of the
environment step into one: done = terminated or truncated
(pendulum_train.py line 115); this is what it passes to
process_trajectory as is_last_terminal (line 136). -/
def train_done (terminated truncated : Bool) : Bool :=
  terminated || truncated

/-- Counterexample for C2: on a one-transition segment with reward 0 and
value 0, gamma = gae_lam = 1 and last_v = 1, an environment step with
terminated = false and truncated = true makes the training loop pass
is_last_terminal = true, so process_trajectory initializes next_value to
0 and yields advantage [0], while the recursion bootstrapped from
last_v = 1 yields [1]: truncation without termination does not bootstrap. -/
theorem truncation_bootstrap_counterexample :
    train_done false true = true ∧
    (process_trajectory
        { capacity := 1,
          data := [{ obs := [], action := [], reward := 0, value := 0,
                     log_prob := 0 }],
          adv := [], ret := [] }
        1 1 (train_done false true) 1).adv = [0] ∧
    gaeAdvantages 1 1 1
      (segment
        { capacity := 1,
          data := [{ obs := [], action := [], reward := 0, value := 0,
                     log_prob := 0 }],
          adv := [], ret := [] }) = [1] ∧
    ([0] : List ℚ) ≠ [1] := by
  refine ⟨rfl, ?_, ?_, by norm_num⟩
  · simp only [process_trajectory, gaeAdvantages, gaeFold, gaeStep, segment,
      train_done, List.drop, List.map, List.foldr, List.nil_append]
    norm_num
  · simp only [gaeAdvantages, gaeFold, gaeStep, segment, List.drop,
      List.map, List.foldr]
    norm_num

/-- Claim C2 amended: in the training loop a final step with
truncated = true (whatever terminated is) makes done = true, so
process_trajectory is called with is_last_terminal = true and initializes
next_value to 0, ignoring last_v; bootstrapping from last_v happens only
at a buffer-full cutoff in the middle of an episode (done = false). -/
theorem truncation_no_bootstrap (terminated truncated : Bool)
    (buf : PPOBuffer) (gamma gae_lam last_v : ℚ)
    (h : truncated = true) :
    train_done terminated truncated = true ∧
    process_trajectory buf gamma gae_lam (train_done terminated truncated)
        last_v =
      process_trajectory buf gamma gae_lam true 0 := by
  subst h
  constructor
  · simp [train_done]
  · simp [train_done, process_trajectory]

/-- Witness for the amended C2: a concrete truncated, non-terminated step
on a concrete one-transition buffer. -/
theorem truncation_no_bootstrap_witness :
    train_done false true = true ∧
    process_trajectory
        { capacity := 1,
          data := [{ obs := [], action := [], reward := 0, value := 0,
                     log_prob := 0 }],
          adv := [], ret := [] }
        1 1 (train_done false true) 1 =
      process_trajectory
        { capacity := 1,
          data := [{ obs := [], action := [], reward := 0, value := 0,
                     log_prob := 0 }],
          adv := [], ret := [] }
        1 1 true 0 :=
  truncation_no_bootstrap false true
    { capacity := 1,
      data := [{ obs := [], action := [], reward := 0, value := 0,
                 log_prob := 0 }],
      adv := [], ret := [] }
    1 1 1 rfl

lemma gaeAdvantages_length (gamma gae_lam nv : ℚ) (seg : List (ℚ × ℚ)) :
    (gaeAdvantages gamma gae_lam nv seg).length = seg.length :=
  gaeFold_fst_length gamma gae_lam nv 0 seg

lemma segment_length (buf : PPOBuffer) :
    (segment buf).length = buf.data.length - buf.adv.length := by
  simp [segment]

/-- Structural well-formedness of the buffer: the two derived arrays have
the same length (the processed boundary) and the boundary does not pass
the write cursor. -/
def bufWF (buf : PPOBuffer) : Prop :=
  buf.ret.length = buf.adv.length ∧ buf.adv.length ≤ buf.data.length

/-- The return invariant: return[i] = advantage[i] + value[i] at every
processed index i. -/
def returnInvariant (buf : PPOBuffer) : Prop :=
  ∀ i, i < buf.adv.length →
    buf.ret.getD i 0 = buf.adv.getD i 0 + (buf.data.getD i default).value

/-- Claim C3: the return invariant return[i] = advantage[i] + value[i]
holds at every index processed by process_trajectory, and it is preserved
by every buffer operation: by record (which only appends raw data), by a
further process_trajectory, and by clear (which empties the buffer). -/
theorem return_invariant_preserved (buf : PPOBuffer) (tr : Transition)
    (gamma gae_lam last_v : ℚ) (term : Bool)
    (hwf : bufWF buf) (hinv : returnInvariant buf) :
    (∀ b1, record buf tr = Except.ok b1 →
      bufWF b1 ∧ returnInvariant b1) ∧
    (bufWF (process_trajectory buf gamma gae_lam term last_v) ∧
      returnInvariant (process_trajectory buf gamma gae_lam term last_v)) ∧
    (bufWF (clear buf) ∧ returnInvariant (clear buf)) := by
  obtain ⟨hlen, hle⟩ := hwf
  refine ⟨?_, ?_, ?_⟩
  · intro b1 hb
    simp only [record] at hb
    split at hb
    · cases hb
      refine ⟨⟨hlen, by simpa using Nat.le_succ_of_le hle⟩, ?_⟩
      intro i hi
      have hi2 : i < buf.adv.length := hi
      have hid : i < buf.data.length := lt_of_lt_of_le hi2 hle
      show buf.ret.getD i 0 =
        buf.adv.getD i 0 + ((buf.data ++ [tr]).getD i default).value
      rw [List.getD_append _ _ _ _ hid]
      exact hinv i hi2
    · cases hb
  · have hA : (gaeAdvantages gamma gae_lam (if term then 0 else last_v)
        (segment buf)).length = (segment buf).length :=
      gaeAdvantages_length _ _ _ _
    have hS : (segment buf).length = buf.data.length - buf.adv.length :=
      segment_length buf
    have hR : (List.zipWith (· + ·)
        (gaeAdvantages gamma gae_lam (if term then 0 else last_v)
          (segment buf))
        ((segment buf).map Prod.snd)).length = (segment buf).length := by
      simp [hA]
    have hpadv : (process_trajectory buf gamma gae_lam term last_v).adv =
        buf.adv ++ gaeAdvantages gamma gae_lam (if term then 0 else last_v)
          (segment buf) := rfl
    have hpret : (process_trajectory buf gamma gae_lam term last_v).ret =
        buf.ret ++ List.zipWith (· + ·)
          (gaeAdvantages gamma gae_lam (if term then 0 else last_v)
            (segment buf))
          ((segment buf).map Prod.snd) := rfl
    have hpdata : (process_trajectory buf gamma gae_lam term last_v).data =
        buf.data := rfl
    constructor
    · constructor
      · simp only [hpadv, hpret, List.length_append, hlen, hR, hA]
      · simp only [hpadv, hpdata, List.length_append, hA, hS]
        omega
    · intro i hi
      simp only [hpadv, List.length_append, hA] at hi
      rw [hpadv, hpret, hpdata]
      by_cases hcase : i < buf.adv.length
      · have hir : i < buf.ret.length := by omega
        have hid : i < buf.data.length := by omega
        rw [List.getD_append _ _ _ _ hir, List.getD_append _ _ _ _ hcase]
        exact hinv i hcase
      · have hAi : buf.adv.length ≤ i := le_of_not_lt hcase
        have hri : buf.ret.length ≤ i := by omega
        rw [List.getD_append_right _ _ _ _ hri,
          List.getD_append_right _ _ _ _ hAi, hlen]
        have hjn : i - buf.adv.length < (segment buf).length := by omega
        have hjr : i - buf.adv.length < (List.zipWith (· + ·)
            (gaeAdvantages gamma gae_lam (if term then 0 else last_v)
              (segment buf))
            ((segment buf).map Prod.snd)).length := by
          rw [hR]; omega
        have hja : i - buf.adv.length <
            (gaeAdvantages gamma gae_lam (if term then 0 else last_v)
              (segment buf)).length := by
          rw [hA]; omega
        have h1 : (List.zipWith (· + ·)
              (gaeAdvantages gamma gae_lam (if term then 0 else last_v)
                (segment buf))
              ((segment buf).map Prod.snd)).getD (i - buf.adv.length) 0 =
            (gaeAdvantages gamma gae_lam (if term then 0 else last_v)
              (segment buf)).getD (i - buf.adv.length) 0 +
            ((segment buf).getD (i - buf.adv.length) (0, 0)).2 := by
          rw [List.getD_eq_getElem _ _ hjr, List.getD_eq_getElem _ _ hja,
            List.getD_eq_getElem _ _ hjn, List.getElem_zipWith,
            List.getElem_map]
        have hjd : buf.adv.length + (i - buf.adv.length) <
            buf.data.length := by omega
        have h2 : ((segment buf).getD (i - buf.adv.length) (0, 0)).2 =
            (buf.data.getD i default).value := by
          have hi2 : i < buf.data.length := by omega
          rw [List.getD_eq_getElem _ _ hjn]
          simp only [segment, List.getElem_map, List.getElem_drop]
          rw [← List.getD_eq_getElem buf.data default hjd]
          have hidx : buf.adv.length + (i - buf.adv.length) = i := by omega
          rw [hidx, List.getD_eq_getElem _ _ hi2]
        rw [h1, h2]
  · refine ⟨⟨rfl, Nat.le_refl 0⟩, ?_⟩
    intro i hi
    simp [clear] at hi

/-- Witness for C3: the preservation theorem applied to the concrete
empty buffer of capacity 2 and a concrete transition. -/
theorem return_invariant_preserved_witness :
    (∀ b1, record { capacity := 2, data := [], adv := [], ret := [] }
        { obs := [], action := [], reward := 1, value := 2, log_prob := 0 } =
        Except.ok b1 → bufWF b1 ∧ returnInvariant b1) ∧
    (bufWF (process_trajectory
        { capacity := 2, data := [], adv := [], ret := [] } 1 1 true 0) ∧
      returnInvariant (process_trajectory
        { capacity := 2, data := [], adv := [], ret := [] } 1 1 true 0)) ∧
    (bufWF (clear { capacity := 2, data := [], adv := [], ret := [] }) ∧
      returnInvariant
        (clear { capacity := 2, data := [], adv := [], ret := [] })) :=
  return_invariant_preserved
    { capacity := 2, data := [], adv := [], ret := [] }
    { obs := [], action := [], reward := 1, value := 2, log_prob := 0 }
    1 1 0 true ⟨rfl, Nat.le_refl 0⟩ (fun i hi => by simp at hi)

lemma recordMany_ok (trs : List Transition) :
    ∀ buf : PPOBuffer, buf.data.length + trs.length ≤ buf.capacity →
      recordMany buf trs = Except.ok { buf with data := buf.data ++ trs } := by
  induction trs with
  | nil =>
    intro buf _
    simp [recordMany]
  | cons tr rest ih =>
    intro buf h
    have hlt : buf.data.length < buf.capacity := by
      simp only [List.length_cons] at h
      omega
    simp only [recordMany, record, if_pos hlt]
    rw [ih { buf with data := buf.data ++ [tr] }
      (by simp only [List.length_append, List.length_singleton,
        List.length_cons, List.length_nil] at h ⊢; omega)]
    simp

lemma recordMany_overflow (trs : List Transition) :
    ∀ buf : PPOBuffer, buf.data.length ≤ buf.capacity →
      buf.capacity < buf.data.length + trs.length →
      recordMany buf trs = Except.error BufError.BufferOverflow := by
  induction trs with
  | nil =>
    intro buf h1 h2
    simp at h2
    omega
  | cons tr rest ih =>
    intro buf h1 h2
    by_cases hlt : buf.data.length < buf.capacity
    · simp only [recordMany, record, if_pos hlt]
      exact ih { buf with data := buf.data ++ [tr] }
        (by simp; omega)
        (by simp only [List.length_append, List.length_singleton,
          List.length_cons, List.length_nil] at h2 ⊢; omega)
    · simp only [recordMany, record, if_neg hlt]

/-- Claim C9: starting from a cleared buffer, the first capacity record
calls succeed (each appending its transition at the write cursor, so the
recorded data is exactly the list of recorded transitions in order), and
any further record call makes the sequence fail with BufferOverflow. -/
theorem record_capacity_iff (buf : PPOBuffer) (trs : List Transition) :
    (trs.length ≤ buf.capacity →
      recordMany (clear buf) trs =
        Except.ok { clear buf with data := trs }) ∧
    (buf.capacity < trs.length →
      recordMany (clear buf) trs = Except.error BufError.BufferOverflow) := by
  constructor
  · intro h
    have := recordMany_ok trs (clear buf) (by simpa [clear] using h)
    simpa [clear] using this
  · intro h
    exact recordMany_overflow trs (clear buf) (by simp [clear])
      (by simpa [clear] using h)

/-- Witness for C9: with capacity 2, two records succeed and three
overflow. -/
theorem record_capacity_iff_witness :
    recordMany
        (clear { capacity := 2, data := [], adv := [], ret := [] })
        [{ obs := [], action := [], reward := 1, value := 0, log_prob := 0 },
         { obs := [], action := [], reward := 2, value := 0,
           log_prob := 0 }] =
      Except.ok
        { capacity := 2,
          data :=
            [{ obs := [], action := [], reward := 1, value := 0,
               log_prob := 0 },
             { obs := [], action := [], reward := 2, value := 0,
               log_prob := 0 }],
          adv := [], ret := [] } ∧
    recordMany
        (clear { capacity := 2, data := [], adv := [], ret := [] })
        [{ obs := [], action := [], reward := 1, value := 0, log_prob := 0 },
         { obs := [], action := [], reward := 2, value := 0, log_prob := 0 },
         { obs := [], action := [], reward := 3, value := 0,
           log_prob := 0 }] =
      Except.error BufError.BufferOverflow :=
  ⟨(record_capacity_iff
      { capacity := 2, data := [], adv := [], ret := [] } _).1 (by decide),
   (record_capacity_iff
      { capacity := 2, data := [], adv := [], ret := [] } _).2 (by decide)⟩

/-- Modelled from the spec: one minibatch, a record with the five fields
obs, action, log_prob, advantage and return (named ret here because
return is a keyword), each a slice of the corresponding buffer array
along the chunk of shuffled indices. -/
structure Minibatch where
  obs : List (List ℚ)
  action : List (List ℚ)
  log_prob : List ℚ
  advantage : List ℚ
  ret : List ℚ
deriving DecidableEq, Repr

/-- Build the minibatch of a chunk of indices by slicing the buffer
arrays along it. -/
def mkMinibatch (buf : PPOBuffer) (idxs : List ℕ) : Minibatch :=
  { obs := idxs.map (fun i => (buf.data.getD i default).obs),
    action := idxs.map (fun i => (buf.data.getD i default).action),
    log_prob := idxs.map (fun i => (buf.data.getD i default).log_prob),
    advantage := idxs.map (fun i => buf.adv.getD i 0),
    ret := idxs.map (fun i => buf.ret.getD i 0) }

/-- Split a list into consecutive chunks of the given batch size; the
last chunk may be shorter. A batch size of zero yields no chunks. -/
def toBatches {α : Type*} : ℕ → List α → List (List α)
  | _, [] => []
  | 0, _ :: _ => []
  | batch_size + 1, x :: rest =>
      ((x :: rest).take (batch_size + 1)) ::
        toBatches (batch_size + 1) (rest.drop batch_size)
termination_by _ xs => xs.length
decreasing_by
  simp only [List.length_drop, List.length_cons]
  omega

/-- Modelled from the spec: `get_mini_batch` requires every transition in
the buffer to be processed (failing with NotReady otherwise) and slices
the buffer fields along consecutive chunks of the shuffled index list;
the injected permutation stands for the fresh random shuffle of each
call. -/
def get_mini_batch (buf : PPOBuffer) (perm : List ℕ) (batch_size : ℕ) :
    Except BufError (List Minibatch) :=
  if buf.adv.length = buf.data.length then
    Except.ok ((toBatches batch_size perm).map (mkMinibatch buf))
  else
    Except.error BufError.NotReady

lemma toBatches_flatten {α : Type*} (B : ℕ) (xs : List α) :
    (toBatches (B + 1) xs).flatten = xs := by
  generalize hn : xs.length = n
  induction n using Nat.strong_induction_on generalizing xs with
  | _ n ih =>
    cases xs with
    | nil => simp [toBatches]
    | cons x rest =>
      have hlt : (rest.drop B).length < n := by
        simp only [List.length_cons] at hn
        simp only [List.length_drop]
        omega
      simp only [toBatches, List.flatten_cons]
      rw [ih (rest.drop B).length hlt (rest.drop B) rfl]
      exact List.take_append_drop (B + 1) (x :: rest)

lemma toBatches_length {α : Type*} (B : ℕ) (xs : List α) :
    (toBatches (B + 1) xs).length = (xs.length + B) / (B + 1) := by
  generalize hn : xs.length = n
  induction n using Nat.strong_induction_on generalizing xs with
  | _ n ih =>
    cases xs with
    | nil =>
      rw [← hn]
      simp only [toBatches, List.length_nil, List.length_cons,
        Nat.zero_add]
      rw [Nat.div_eq_of_lt (Nat.lt_succ_self B)]
    | cons x rest =>
      have hlt : (rest.drop B).length < n := by
        simp only [List.length_cons] at hn
        simp only [List.length_drop]
        omega
      rw [← hn]
      simp only [toBatches, List.length_cons]
      rw [ih (rest.drop B).length hlt (rest.drop B) rfl]
      simp only [List.length_drop]
      rcases le_or_lt B rest.length with hc | hc
      · have e1 : rest.length - B + B = rest.length := by omega
        have e2 : rest.length + 1 + B = rest.length + (B + 1) := by omega
        rw [e1, e2, Nat.add_div_right _ (Nat.succ_pos B)]
      · have e1 : rest.length - B = 0 := by omega
        have e2 : (0 + B) / (B + 1) = 0 :=
          Nat.div_eq_of_lt (by omega)
        have e3 : rest.length + 1 + B = rest.length + (B + 1) := by omega
        have e4 : rest.length / (B + 1) = 0 :=
          Nat.div_eq_of_lt (by omega)
        rw [e1, e2, e3, Nat.add_div_right _ (Nat.succ_pos B), e4]

lemma toBatches_sizes {α : Type*} (B : ℕ) (xs : List α) :
    ∀ c ∈ toBatches (B + 1) xs, c.length ≤ B + 1 := by
  generalize hn : xs.length = n
  induction n using Nat.strong_induction_on generalizing xs with
  | _ n ih =>
    cases xs with
    | nil => simp [toBatches]
    | cons x rest =>
      have hlt : (rest.drop B).length < n := by
        simp only [List.length_cons] at hn
        simp only [List.length_drop]
        omega
      intro c hc
      simp only [toBatches, List.mem_cons] at hc
      rcases hc with hc | hc
      · subst hc
        simp only [List.length_take]
        exact Nat.min_le_left (B + 1) (x :: rest).length
      · exact ih (rest.drop B).length hlt (rest.drop B) rfl c hc

/-- Claim C4: over a fully processed buffer of N transitions, one
get_mini_batch call with batch size B and any shuffled index order
yields ceil(N / B) minibatches built from chunks of indices that are
pairwise disjoint, each of size at most B, and whose concatenation is a
permutation of the N buffer indices (each index appears exactly once);
each minibatch exposes the field slices obs, action, log_prob, advantage
and return. -/
theorem get_mini_batch_partition (buf : PPOBuffer) (perm : List ℕ)
    (B : ℕ) (hB : 0 < B) (hproc : buf.adv.length = buf.data.length)
    (hperm : perm.Perm (List.range buf.data.length)) :
    get_mini_batch buf perm B =
      Except.ok ((toBatches B perm).map (mkMinibatch buf)) ∧
    (toBatches B perm).length = (buf.data.length + B - 1) / B ∧
    (toBatches B perm).flatten.Perm (List.range buf.data.length) ∧
    List.Pairwise List.Disjoint (toBatches B perm) ∧
    (∀ c ∈ toBatches B perm, c.length ≤ B) := by
  obtain ⟨b, rfl⟩ : ∃ b, B = b + 1 := ⟨B - 1, by omega⟩
  have hlen : perm.length = buf.data.length := by
    simpa using hperm.length_eq
  have hflat : (toBatches (b + 1) perm).flatten = perm :=
    toBatches_flatten b perm
  refine ⟨by simp [get_mini_batch, hproc], ?_, ?_, ?_, toBatches_sizes b perm⟩
  · rw [toBatches_length, hlen]
    congr 1
  · rw [hflat]
    exact hperm
  · have hnd : perm.Nodup := by
      rw [hperm.nodup_iff]
      exact List.nodup_range _
    have : (toBatches (b + 1) perm).flatten.Nodup := by
      rw [hflat]; exact hnd
    exact (List.nodup_flatten.mp this).2

/-- Witness for C4: a processed 3-transition buffer, the shuffle
[2, 0, 1] and batch size 2. -/
theorem get_mini_batch_partition_witness :
    get_mini_batch
        { capacity := 3,
          data := [default, default, default],
          adv := [1, 2, 3], ret := [4, 5, 6] } [2, 0, 1] 2 =
      Except.ok ((toBatches 2 [2, 0, 1]).map
        (mkMinibatch
          { capacity := 3,
            data := [default, default, default],
            adv := [1, 2, 3], ret := [4, 5, 6] })) ∧
    (toBatches 2 [2, 0, 1]).length = (3 + 2 - 1) / 2 ∧
    (toBatches 2 [2, 0, 1]).flatten.Perm (List.range 3) ∧
    List.Pairwise List.Disjoint (toBatches 2 [2, 0, 1]) ∧
    (∀ c ∈ toBatches 2 [2, 0, 1], c.length ≤ 2) :=
  get_mini_batch_partition
    { capacity := 3,
      data := [default, default, default],
      adv := [1, 2, 3], ret := [4, 5, 6] } [2, 0, 1] 2
    (by decide) rfl (by decide)

/-- Buffer capacity and update period of the training loop
(pendulum_train.py line 18). -/
def NUM_STEPS : ℕ := 2048

/-- Every recorded transition has its advantage and return populated. -/
def fullyProcessed (buf : PPOBuffer) : Prop :=
  buf.adv.length = buf.data.length

lemma process_trajectory_fullyProcessed (buf : PPOBuffer)
    (gamma gae_lam last_v : ℚ) (term : Bool)
    (h : buf.adv.length ≤ buf.data.length) :
    fullyProcessed (process_trajectory buf gamma gae_lam term last_v) := by
  show (buf.adv ++ gaeAdvantages gamma gae_lam
      (if term then 0 else last_v) (segment buf)).length =
    buf.data.length
  rw [List.length_append, gaeAdvantages_length, segment_length]
  omega

/-- One iteration of the training loop restricted to its buffer effects:
record the transition of step t, then process the trajectory exactly when
the episode ended or the collection window is full
(pendulum_train.py lines 120 and 126-137). -/
def loop_step_buffer (t : ℕ) (done : Bool) (gamma gae_lam last_v : ℚ)
    (tr : Transition) (buf : PPOBuffer) : Except BufError PPOBuffer :=
  match record buf tr with
  | Except.error e => Except.error e
  | Except.ok b1 =>
      Except.ok
        (if done || decide ((t + 1) % NUM_STEPS = 0) then
          process_trajectory b1 gamma gae_lam done last_v
        else b1)

/-- Claim C10: whenever the update branch condition
(t + 1) % NUM_STEPS = 0 holds, the process-trajectory branch condition
done or (t + 1) % NUM_STEPS = 0 held at the same step, so the loop
iteration leaves the buffer fully processed and get_mini_batch cannot
fail with NotReady. -/
theorem update_branch_fully_processed (t : ℕ) (done : Bool)
    (gamma gae_lam last_v : ℚ) (tr : Transition) (buf : PPOBuffer)
    (perm : List ℕ) (batch_size : ℕ)
    (hwf : buf.adv.length ≤ buf.data.length)
    (hcap : buf.data.length < buf.capacity)
    (ht : (t + 1) % NUM_STEPS = 0) :
    (done || decide ((t + 1) % NUM_STEPS = 0)) = true ∧
    ∃ b1, loop_step_buffer t done gamma gae_lam last_v tr buf =
        Except.ok b1 ∧
      fullyProcessed b1 ∧
      get_mini_batch b1 perm batch_size ≠
        Except.error BufError.NotReady := by
  have hcond : (done || decide ((t + 1) % NUM_STEPS = 0)) = true := by
    simp [ht]
  refine ⟨hcond, ?_⟩
  refine ⟨process_trajectory { buf with data := buf.data ++ [tr] }
    gamma gae_lam done last_v, ?_, ?_, ?_⟩
  · simp only [loop_step_buffer, record, if_pos hcap, hcond, if_pos]
  · exact process_trajectory_fullyProcessed _ _ _ _ _
      (by simp only [List.length_append, List.length_singleton]; omega)
  · have hfp : fullyProcessed (process_trajectory
        { buf with data := buf.data ++ [tr] } gamma gae_lam done last_v) :=
      process_trajectory_fullyProcessed _ _ _ _ _
        (by simp only [List.length_append, List.length_singleton]; omega)
    simp [get_mini_batch, fullyProcessed] at hfp ⊢
    simp [hfp]

/-- Witness for C10: the last step of the first window, t = 2047, on an
empty buffer of capacity NUM_STEPS. -/
theorem update_branch_fully_processed_witness :
    (false || decide ((2047 + 1) % NUM_STEPS = 0)) = true ∧
    ∃ b1, loop_step_buffer 2047 false 1 1 0
        { obs := [], action := [], reward := 0, value := 0, log_prob := 0 }
        { capacity := NUM_STEPS, data := [], adv := [], ret := [] } =
        Except.ok b1 ∧
      fullyProcessed b1 ∧
      get_mini_batch b1 [0] 1 ≠ Except.error BufError.NotReady :=
  update_branch_fully_processed 2047 false 1 1 0
    { obs := [], action := [], reward := 0, value := 0, log_prob := 0 }
    { capacity := NUM_STEPS, data := [], adv := [], ret := [] }
    [0] 1 (Nat.le_refl 0) (by decide) (by decide)

/-- The failure kind of the unconditional Python division at the end of
an update window. -/
inductive LoopError where
  | zeroDivisionError
deriving DecidableEq, Repr

/-- The mean episodic reward computation at the end of an update window
(pendulum_train.py line 203): ep_reward / ep_count, computed with no
branch on ep_count, so a zero ep_count makes the division fail. -/
def mean_ep_reward (ep_reward : ℚ) (ep_count : ℕ) : Except LoopError ℚ :=
  if ep_count = 0 then Except.error LoopError.zeroDivisionError
  else Except.ok (ep_reward / ep_count)

/-- The number of completed episodes counted over an update window: the
loop increments ep_count exactly at steps whose done flag is set
(pendulum_train.py lines 127-128). -/
def ep_count_in_window (dones : List Bool) : ℕ := dones.count true

/-- Counterexample for C5: a window of NUM_STEPS steps in which no
episode completes has ep_count = 0, and the mean episodic reward
computation of the loop fails with a division by zero instead of being
guarded. -/
theorem mean_ep_reward_unguarded :
    ep_count_in_window (List.replicate NUM_STEPS false) = 0 ∧
    mean_ep_reward 0
        (ep_count_in_window (List.replicate NUM_STEPS false)) =
      Except.error LoopError.zeroDivisionError := by
  have hc : ep_count_in_window (List.replicate NUM_STEPS false) = 0 := by
    simp [ep_count_in_window, List.count_replicate]
  exact ⟨hc, by rw [hc]; rfl⟩

/-- Claim C5 amended: the training loop does not guard the mean episodic
reward computation; it divides ep_reward by ep_count unconditionally at
every update boundary, and for any window in which no step completes an
episode the division fails with a division by zero. -/
theorem mean_ep_reward_division_by_zero (ep_reward : ℚ)
    (dones : List Bool) (h : ∀ d ∈ dones, d = false) :
    mean_ep_reward ep_reward (ep_count_in_window dones) =
      Except.error LoopError.zeroDivisionError := by
  have hc : ep_count_in_window dones = 0 := by
    simp only [ep_count_in_window, List.count_eq_zero]
    intro hmem
    exact Bool.true_eq_false.mp (h true hmem) |>.elim
  rw [hc]
  rfl

/-- Witness for the amended C5: a concrete two-step window with no
completed episode. -/
theorem mean_ep_reward_division_by_zero_witness :
    mean_ep_reward 5 (ep_count_in_window [false, false]) =
      Except.error LoopError.zeroDivisionError :=
  mean_ep_reward_division_by_zero 5 [false, false] (by decide)

/-- A fully connected layer, as torch nn.Linear: a weight matrix and a
bias vector. -/
structure Linear (in_dim out_dim : ℕ) where
  weight : Fin out_dim → Fin in_dim → ℝ
  bias : Fin out_dim → ℝ

/-- Application of a linear layer to an input vector. -/
noncomputable def Linear.apply {m n : ℕ} (l : Linear m n)
    (x : Fin m → ℝ) : Fin n → ℝ :=
  fun i => (∑ j, l.weight i j * x j) + l.bias i

/-- The actor network PI_Network of pendulum_train.py: action bounds and
three linear layers, the two hidden ones of width 64. -/
structure PI_Network (obs_dim action_dim : ℕ) where
  lower_bound : Fin action_dim → ℝ
  upper_bound : Fin action_dim → ℝ
  fc1 : Linear obs_dim 64
  fc2 : Linear 64 64
  fc3 : Linear 64 action_dim

/-- The raw output of the final linear layer fc3 before rescaling: fc3
applied to the tanh-activated second hidden layer, which is fc2 applied
to the tanh-activated first hidden layer. No bounding nonlinearity is
applied to this output. -/
noncomputable def PI_Network.rawOutput {o a : ℕ} (net : PI_Network o a)
    (obs : Fin o → ℝ) : Fin a → ℝ :=
  net.fc3.apply (fun i =>
    Real.tanh (net.fc2.apply (fun j =>
      Real.tanh (net.fc1.apply obs j)) i))

/-- PI_Network.forward (pendulum_train.py lines 41-49):
y = tanh(fc1(obs)); y = tanh(fc2(y)); action = fc3(y);
action = (action + 1) * (upper_bound - lower_bound) / 2 + lower_bound. -/
noncomputable def PI_Network.forward {o a : ℕ} (net : PI_Network o a)
    (obs : Fin o → ℝ) : Fin a → ℝ :=
  let y1 := fun i => Real.tanh (net.fc1.apply obs i)
  let y2 := fun i => Real.tanh (net.fc2.apply y1 i)
  let action := net.fc3.apply y2
  fun i =>
    (action i + 1) * (net.upper_bound i - net.lower_bound i) / 2 +
      net.lower_bound i

/-- Claim C6: the actor applies tanh after each of the two hidden layers
and maps the raw, unbounded output of the final linear layer into the
action range by the affine map ((raw + 1) * (upper - lower) / 2 + lower),
with no bounding nonlinearity; consequently the returned mean leaves
[lower, upper] whenever the raw output leaves [-1, 1]. -/
theorem forward_affine_unbounded {o a : ℕ} (net : PI_Network o a)
    (obs : Fin o → ℝ) (i : Fin a) :
    net.forward obs i =
      (net.rawOutput obs i + 1) *
        (net.upper_bound i - net.lower_bound i) / 2 +
        net.lower_bound i ∧
    (net.lower_bound i < net.upper_bound i → 1 < net.rawOutput obs i →
      net.upper_bound i < net.forward obs i) ∧
    (net.lower_bound i < net.upper_bound i → net.rawOutput obs i < -1 →
      net.forward obs i < net.lower_bound i) := by
  refine ⟨rfl, ?_, ?_⟩
  · intro hlt hraw
    show net.upper_bound i <
      (net.rawOutput obs i + 1) *
        (net.upper_bound i - net.lower_bound i) / 2 + net.lower_bound i
    nlinarith [mul_pos (sub_pos.mpr hlt) (sub_pos.mpr hraw)]
  · intro hlt hraw
    show (net.rawOutput obs i + 1) *
        (net.upper_bound i - net.lower_bound i) / 2 + net.lower_bound i <
      net.lower_bound i
    nlinarith [mul_pos (sub_pos.mpr hlt) (by linarith :
      (0:ℝ) < -1 - net.rawOutput obs i)]

/-- A concrete actor network with zero weights, zero biases except the
final one, and action bounds [0, 1]: its raw final-layer output is the
constant 2. -/
noncomputable def zeroActorNet : PI_Network 1 1 :=
  { lower_bound := fun _ => 0,
    upper_bound := fun _ => 1,
    fc1 := { weight := fun _ _ => 0, bias := fun _ => 0 },
    fc2 := { weight := fun _ _ => 0, bias := fun _ => 0 },
    fc3 := { weight := fun _ _ => 0, bias := fun _ => 2 } }

/-- Witness for C6: on the zero-weight network the raw output is 2 > 1
and the returned mean exceeds the upper bound. -/
theorem forward_affine_unbounded_witness :
    zeroActorNet.lower_bound 0 < zeroActorNet.upper_bound 0 ∧
    1 < zeroActorNet.rawOutput (fun _ => 0) 0 ∧
    zeroActorNet.upper_bound 0 <
      zeroActorNet.forward (fun _ => 0) 0 := by
  have hraw : zeroActorNet.rawOutput (fun _ => 0) 0 = 2 := by
    simp [zeroActorNet, PI_Network.rawOutput, Linear.apply]
  have hlt : zeroActorNet.lower_bound 0 < zeroActorNet.upper_bound 0 := by
    simp [zeroActorNet]
  refine ⟨hlt, by rw [hraw]; norm_num, ?_⟩
  exact (forward_affine_unbounded zeroActorNet (fun _ => 0) 0).2.1 hlt
    (by rw [hraw]; norm_num)

/-- The mean of a batch, as np.mean. -/
noncomputable def batchMean (xs : List ℝ) : ℝ := xs.sum / xs.length

/-- The standard deviation of a batch, as np.std (population
convention): the square root of the mean squared deviation. -/
noncomputable def batchStd (xs : List ℝ) : ℝ :=
  Real.sqrt ((xs.map (fun x => (x - batchMean xs) ^ 2)).sum / xs.length)

/-- The advantage normalization of the training loop (pendulum_train.py
lines 163-167): subtract the batch mean and divide by the batch standard
deviation plus 1e-8. -/
noncomputable def normalizeAdvantage (xs : List ℝ) : List ℝ :=
  xs.map (fun x => (x - batchMean xs) / (batchStd xs + 1 / 100000000))

/-- Claim C7: the denominator of the advantage normalization is the batch
standard deviation plus 1e-8, which is strictly positive for every batch,
so the normalization is well defined; on a batch whose advantages are all
equal, every normalized advantage is exactly 0 (finite, not NaN or Inf). -/
theorem advantage_normalization_safe (xs : List ℝ) (hne : xs ≠ []) :
    0 < batchStd xs + 1 / 100000000 ∧
    ∀ c : ℝ, (∀ x ∈ xs, x = c) →
      normalizeAdvantage xs = xs.map (fun _ => 0) := by
  constructor
  · have h0 : (0:ℝ) ≤ batchStd xs := Real.sqrt_nonneg _
    linarith
  · intro c hc
    have hlen : (xs.length : ℝ) ≠ 0 := by
      have : xs.length ≠ 0 := fun h0 =>
        hne (List.eq_nil_of_length_eq_zero h0)
      exact_mod_cast this
    have hrep : xs = List.replicate xs.length c :=
      List.eq_replicate_of_mem hc
    have hsum : xs.sum = (xs.length : ℝ) * c := by
      rw [hrep]
      simp [List.sum_replicate, nsmul_eq_mul]
    have hmean : batchMean xs = c := by
      rw [batchMean, hsum]
      field_simp
    unfold normalizeAdvantage
    apply List.map_congr_left
    intro x hx
    rw [hmean, hc x hx, sub_self, zero_div]

/-- Witness for C7: the constant batch [1, 1]. -/
theorem advantage_normalization_safe_witness :
    0 < batchStd [1, 1] + 1 / 100000000 ∧
    normalizeAdvantage [(1:ℝ), 1] = [0, 0] := by
  have h := advantage_normalization_safe [(1:ℝ), 1] (by simp)
  refine ⟨h.1, ?_⟩
  have h2 := h.2 1 (by
    intro x hx
    simp only [List.mem_cons, List.not_mem_nil, or_false] at hx
    rcases hx with hx | hx <;> exact hx)
  simpa using h2

/-- numpy clip: clamp x into the interval [lo, hi]. -/
def clip (x lo hi : ℚ) : ℚ := min (max x lo) hi

/-- Modelled from the spec: the per-sample contribution to the clipped
surrogate policy loss of policy.update (policy.py is absent from the
sources): min(r * a, clip(r, 1 - eps, 1 + eps) * a), whose negated mean
over the batch is L_pi. -/
def surrogateContribution (r a eps : ℚ) : ℚ :=
  min (r * a) (clip r (1 - eps) (1 + eps) * a)

/-- Counterexample for C8: at ratio r = 10, advantage a = -1 and
eps = 1/5 (the clip_range of the program), the contribution is
min(-10, -6/5) = -10, whose magnitude 10 exceeds |a| * (1 + eps) = 6/5:
the claimed symmetric bound fails for negative advantage. -/
theorem surrogate_bound_counterexample :
    ¬ (|surrogateContribution 10 (-1) (1/5)| ≤ |(-1 : ℚ)| * (1 + 1/5)) := by
  have h : surrogateContribution 10 (-1) (1/5) = -10 := by
    norm_num [surrogateContribution, clip, min_def, max_def]
  rw [h]
  rw [abs_of_nonpos (by norm_num), abs_of_nonpos (by norm_num)]
  norm_num

/-- Claim C8 amended: for nonnegative ratio r and eps, the contribution
min(r * a, clip(r, 1 - eps, 1 + eps) * a) has magnitude at most
|a| * (1 + eps) when a > 0; when a < 0 the symmetric magnitude bound does
not hold (the contribution is unbounded below in r) and only the
one-sided bound contribution <= (1 - eps) * a remains. -/
theorem surrogate_bound_amended (r a eps : ℚ)
    (hr : 0 ≤ r) (heps : 0 ≤ eps) :
    (0 < a → |surrogateContribution r a eps| ≤ |a| * (1 + eps)) ∧
    (a < 0 → surrogateContribution r a eps ≤ (1 - eps) * a) := by
  have hc1 : 1 - eps ≤ clip r (1 - eps) (1 + eps) :=
    le_min (le_max_right r (1 - eps)) (by linarith)
  have hc2 : clip r (1 - eps) (1 + eps) ≤ 1 + eps :=
    min_le_right _ _
  constructor
  · intro ha
    rw [abs_of_pos ha, surrogateContribution, abs_le]
    constructor
    · have h2 : (0:ℚ) ≤ r * a := mul_nonneg hr ha.le
      have h4 : (1 - eps) * a ≤ clip r (1 - eps) (1 + eps) * a :=
        mul_le_mul_of_nonneg_right hc1 ha.le
      refine le_min (by nlinarith) (by nlinarith)
    · refine le_trans (min_le_right _ _) ?_
      have := mul_le_mul_of_nonneg_right hc2 ha.le
      nlinarith
  · intro ha
    refine le_trans (min_le_right _ _) ?_
    nlinarith [mul_nonneg (sub_nonneg.mpr hc1) (neg_nonneg.mpr ha.le)]

/-- Witness for the amended C8: r = 2, eps = 1/5, advantages 1 and -1. -/
theorem surrogate_bound_amended_witness :
    |surrogateContribution 2 1 (1/5)| ≤ |(1:ℚ)| * (1 + 1/5) ∧
    surrogateContribution 2 (-1) (1/5) ≤ (1 - 1/5) * (-1) :=
  ⟨(surrogate_bound_amended 2 1 (1/5) (by norm_num) (by norm_num)).1
      (by norm_num),
   (surrogate_bound_amended 2 (-1) (1/5) (by norm_num) (by norm_num)).2
      (by norm_num)⟩

end PPO
